import Mathlib

/-!
Verification of `scripts/format_html.py`.

The script reformats HTML text with a single regex substitution:

  pattern = re.compile(r"<([A-Za-z][\w:-]*)\b([^>]*)>\s*([^<][^<]*?)\s*</\1>", re.S | re.M)

  def transform(html):
      def repl(m): ...
      return pattern.sub(repl, html)

We embed the matcher operationally on `List Char`, reproducing the regex
engine's deterministic backtracking order for this particular pattern:
  * tag name: one ASCII letter, then a greedy run of `[\w:-]`, then `\b`;
    when the rest of the pattern fails, the engine gives the run back one
    character at a time and re-attempts the entire remaining pattern at
    every cut where the word boundary holds;
  * attributes: greedy `[^>]*` followed by a literal `>` (deterministic,
    since `>` is excluded from the class);
  * `\s*` before the text group: greedy, backtracked one character at a
    time on failure;
  * text group `([^<][^<]*?)`: lazy, extended one character at a time;
  * `\s*</` name `>`: greedy whitespace then a literal (deterministic,
    since `<` is not whitespace), with a case-sensitive back-reference.

Character classes are exact on ASCII input: `\s` is the six ASCII
whitespace characters, `\w` is alphanumerics plus underscore, and
`str.lower` maps `A`–`Z` to `a`–`z`.  Python's `str` patterns and
`str.lower` are Unicode-aware beyond ASCII (for instance `\s` also
matches U+00A0 and `\w` also matches accented letters), which this
embedding does not model; the theorems that quantify over arbitrary
documents therefore carry an explicit all-ASCII hypothesis.
`re.S`/`re.M` only change the meaning of `.`, `^`, `$`, none of which
occur in the pattern.
-/

/-- Python `\s` on ASCII: space, tab, newline, carriage return,
vertical tab, form feed. -/
def isSpace (c : Char) : Bool :=
  c = ' ' || c = '\t' || c = '\n' || c = '\r' ||
  c = Char.ofNat 11 || c = Char.ofNat 12

/-- Python `\w` on ASCII: alphanumerics and underscore. -/
def isWordChar (c : Char) : Bool :=
  c.isAlphanum || c = '_'

/-- First character of a tag name: `[A-Za-z]`. -/
def isNameStart (c : Char) : Bool :=
  c.isAlpha

/-- Subsequent tag-name characters: `[\w:-]`. -/
def isNameChar (c : Char) : Bool :=
  isWordChar c || c = ':' || c = '-'

/-- Python `str.lower` on ASCII letters. -/
def lowerChar (c : Char) : Char :=
  if c = 'A' then 'a' else if c = 'B' then 'b' else if c = 'C' then 'c'
  else if c = 'D' then 'd' else if c = 'E' then 'e' else if c = 'F' then 'f'
  else if c = 'G' then 'g' else if c = 'H' then 'h' else if c = 'I' then 'i'
  else if c = 'J' then 'j' else if c = 'K' then 'k' else if c = 'L' then 'l'
  else if c = 'M' then 'm' else if c = 'N' then 'n' else if c = 'O' then 'o'
  else if c = 'P' then 'p' else if c = 'Q' then 'q' else if c = 'R' then 'r'
  else if c = 'S' then 's' else if c = 'T' then 't' else if c = 'U' then 'u'
  else if c = 'V' then 'v' else if c = 'W' then 'w' else if c = 'X' then 'x'
  else if c = 'Y' then 'y' else if c = 'Z' then 'z' else c

/-- `str.lower` on a character list. -/
def lowerL (l : List Char) : List Char :=
  l.map lowerChar

/-- Worker for `collapseWs`: the flag records whether we are inside a
whitespace run whose single replacement space was already emitted. -/
def collapseGo : Bool → List Char → List Char
  | _, [] => []
  | inRun, c :: s =>
    if isSpace c then
      if inRun then collapseGo true s else ' ' :: collapseGo true s
    else c :: collapseGo false s

/-- `re.sub(r"\s+", " ", ·)`: replace every maximal whitespace run by one
space. -/
def collapseWs (l : List Char) : List Char :=
  collapseGo false l

/-- Python `str.strip()` (ASCII whitespace). -/
def stripWs (l : List Char) : List Char :=
  ((l.dropWhile isSpace).reverse.dropWhile isSpace).reverse

/-- The captured groups of one match of the pattern, together with the
whitespace eaten by the two `\s*` gaps (needed to reconstruct
`m.group(0)`). -/
structure MatchData where
  name : List Char
  attrs : List Char
  ws1 : List Char
  inner : List Char
  ws2 : List Char
deriving Repr, DecidableEq

/-- The literal closing sequence `</` name `>`. -/
def closeLit (name : List Char) : List Char :=
  '<' :: '/' :: (name ++ ['>'])

/-- `m.group(0)`: the full text consumed by the match. -/
def MatchData.matched (m : MatchData) : List Char :=
  '<' :: (m.name ++ m.attrs ++ '>' :: (m.ws1 ++ m.inner ++ m.ws2 ++ closeLit m.name))

/-- Peel a literal: `peel p s = some r` iff `s = p ++ r`. -/
def peel : List Char → List Char → Option (List Char)
  | [], s => some s
  | _, [] => none
  | p :: ps, c :: cs => if p = c then peel ps cs else none

/-- Match `\s*</` name `>` at `s`, returning the consumed whitespace and
the remainder.  Deterministic: the greedy `\s*` never needs to backtrack
because `<` is not whitespace. -/
def closeAt (name s : List Char) : Option (List Char × List Char) :=
  match peel (closeLit name) (s.dropWhile isSpace) with
  | some rest => some (s.takeWhile isSpace, rest)
  | none => none

/-- The lazy text group: `acc` holds the (reversed, nonempty) text taken
so far; before each extension the engine first tries to finish with
`\s*</` name `>`. -/
def innerLoop (name : List Char) : List Char → List Char → Option (List Char × List Char × List Char)
  | acc, [] =>
    match closeAt name [] with
    | some (w2, rest) => some (acc.reverse, w2, rest)
    | none => none
  | acc, c :: s' =>
    match closeAt name (c :: s') with
    | some (w2, rest) => some (acc.reverse, w2, rest)
    | none => if c = '<' then none else innerLoop name (c :: acc) s'

/-- Backtracking loop for the greedy `\s*` before the text group:
`w1rev` is the (reversed) whitespace currently consumed, `s` the rest.
Each attempt must start the text group with one non-`<` character; on
failure one whitespace character is given back. -/
def ws1Attempt (name w1rev s : List Char) :
    Option (List Char × List Char × List Char × List Char) :=
  match s with
  | [] => none
  | c :: s' =>
    if c = '<' then none
    else
      match innerLoop name [c] s' with
      | some (inner, w2, rest) => some (w1rev.reverse, inner, w2, rest)
      | none => none

def ws1Loop (name : List Char) : List Char → List Char → Option (List Char × List Char × List Char × List Char)
  | [], s => ws1Attempt name [] s
  | c :: w1rev', s =>
    match ws1Attempt name (c :: w1rev') s with
    | some r => some r
    | none => ws1Loop name w1rev' (c :: s)

/-- Match `\s*([^<][^<]*?)\s*</` name `>` at `s`. -/
def tailSearch (name s : List Char) :
    Option (List Char × List Char × List Char × List Char) :=
  ws1Loop name (s.takeWhile isSpace).reverse (s.dropWhile isSpace)

/-- The `\b` test at one cut of the greedy name run: `a` is the last
character of the candidate name, `dropped` the characters already given
back (in document order), `afterRun` the text after the full greedy run.
The boundary holds iff the word-character status changes at the cut. -/
def boundaryOk (a : Char) (dropped afterRun : List Char) : Bool :=
  isWordChar a != (match dropped with
    | d :: _ => isWordChar d
    | [] =>
      match afterRun.head? with
      | some d => isWordChar d
      | none => false)

/-- One attempt of the pattern's tail `([^>]*)>\s*([^<][^<]*?)\s*</`
name `>` for a fixed candidate name, on the text that follows it. -/
def tryTail (name attrsSrc : List Char) : Option (MatchData × List Char) :=
  match attrsSrc.dropWhile (· != '>') with
  | '>' :: s2 =>
    match tailSearch name s2 with
    | some (w1, inner, w2, rest) =>
      some (⟨name, attrsSrc.takeWhile (· != '>'), w1, inner, w2⟩, rest)
    | none => none
  | _ => none

/-- Backtracking over the cuts of the greedy name run, longest candidate
first.  `revRest` is the (reversed) candidate still under consideration,
`dropped` the characters already given back (in document order),
`afterRun` the text after the full greedy run.  At every cut where `\b`
holds the entire tail of the pattern is re-attempted. -/
def nameLoop (afterRun : List Char) : List Char → List Char → Option (MatchData × List Char)
  | [], _ => none
  | a :: revRest, dropped =>
    if boundaryOk a dropped afterRun then
      match tryTail ((a :: revRest).reverse) (dropped ++ afterRun) with
      | some r => some r
      | none => nameLoop afterRun revRest (a :: dropped)
    else
      nameLoop afterRun revRest (a :: dropped)

/-- Try to match the whole pattern at the start of `s`.  On success,
returns the decomposed match and the remainder of the text.  The greedy
name run is `c :: s.takeWhile isNameChar`; `nameLoop` then walks its
boundary-valid cuts from the right, re-attempting the rest of the
pattern (the attributes forced to end at the first `>`, then the text
and the back-referenced close) at each cut. -/
def matchAt : List Char → Option (MatchData × List Char)
  | c0 :: c :: s =>
    if c0 = '<' ∧ isNameStart c then
      nameLoop (s.dropWhile isNameChar) ((c :: s.takeWhile isNameChar).reverse) []
    else none
  | _ => none

/-! The constants and the replacement function of the script. -/

def INDENT : List Char := [' ', ' ']

def COLLAPSE_WHITESPACE : Bool := true

def TRIM_TEXT : Bool := true

def VOID : List (List Char) :=
  ["area", "base", "br", "col", "embed", "hr", "img", "input",
   "link", "meta", "param", "source", "track", "wbr"].map String.data

def EXCLUDED : List (List Char) :=
  ["script", "style", "pre", "textarea", "template", "svg", "math",
   "noscript", "code"].map String.data

/-- `repl(m)` from the script. -/
def repl (m : MatchData) : List Char :=
  let tag := lowerL m.name
  if tag ∈ VOID ∨ tag ∈ EXCLUDED then m.matched
  else
    let text := if COLLAPSE_WHITESPACE then collapseWs m.inner else m.inner
    let text := if TRIM_TEXT then stripWs text else text
    if text = [] then m.matched
    else '<' :: (tag ++ m.attrs ++ '>' :: '\n' :: (INDENT ++ text ++ '\n' :: closeLit tag))

/-- `pattern.sub(repl, ·)`: scan left to right; at each position either
replace a match and resume after it, or emit one character.  The fuel is
only a termination device; `transformL` below always supplies enough. -/
def transformAux : Nat → List Char → List Char
  | 0, s => s
  | fuel + 1, s =>
    match matchAt s with
    | some (m, rest) => repl m ++ transformAux fuel rest
    | none =>
      match s with
      | [] => []
      | c :: s' => c :: transformAux fuel s'

/-- `transform` on character lists. -/
def transformL (s : List Char) : List Char :=
  transformAux (s.length + 1) s

/-- `transform(html)` from the script. -/
def transform (s : String) : String :=
  ⟨transformL s.data⟩

/-! ### Decomposition lemmas: a successful match consumes exactly
`m.matched` and leaves the remainder untouched. -/

theorem peel_eq : ∀ (p s r : List Char), peel p s = some r → s = p ++ r := by
  intro p
  induction p with
  | nil =>
    intro s r h
    simp only [peel, Option.some.injEq] at h
    simp [h]
  | cons a p ih =>
    intro s r h
    cases s with
    | nil => simp [peel] at h
    | cons c cs =>
      by_cases hac : a = c
      · subst hac
        simp only [peel, if_pos rfl] at h
        have hcs := ih cs r h
        simp [hcs]
      · simp [peel, hac] at h

theorem closeAt_eq (name s w2 rest : List Char)
    (h : closeAt name s = some (w2, rest)) :
    s = w2 ++ closeLit name ++ rest ∧ w2 = s.takeWhile isSpace := by
  unfold closeAt at h
  rcases hp : peel (closeLit name) (s.dropWhile isSpace) with _ | r <;>
    rw [hp] at h
  · simp at h
  · simp only [Option.some.injEq, Prod.mk.injEq] at h
    obtain ⟨hw, hr⟩ := h
    have hd := peel_eq _ _ _ hp
    constructor
    · conv_lhs => rw [← List.takeWhile_append_dropWhile (p := isSpace) (l := s)]
      rw [hd, hw, hr, List.append_assoc]
    · exact hw.symm

theorem innerLoop_eq (name : List Char) :
    ∀ s acc inner w2 rest, innerLoop name acc s = some (inner, w2, rest) →
      ∃ d, inner = acc.reverse ++ d ∧ s = d ++ w2 ++ closeLit name ++ rest := by
  intro s
  induction s with
  | nil =>
    intro acc inner w2 rest h
    simp [innerLoop, closeAt, closeLit, peel] at h
  | cons c s' ih =>
    intro acc inner w2 rest h
    simp only [innerLoop] at h
    split at h
    · next w2' rest' hc =>
      simp only [Option.some.injEq, Prod.mk.injEq] at h
      obtain ⟨hi, hw, hr⟩ := h
      obtain ⟨hs, -⟩ := closeAt_eq name (c :: s') w2' rest' hc
      refine ⟨[], by simp [hi], ?_⟩
      rw [hs, hw, hr]
      simp
    · split at h
      · simp at h
      · obtain ⟨d, hi, hs⟩ := ih (c :: acc) inner w2 rest h
        refine ⟨c :: d, ?_, ?_⟩
        · simpa using hi
        · simp [hs]

theorem ws1Attempt_eq (name w1rev s w1 inner w2 rest : List Char)
    (h : ws1Attempt name w1rev s = some (w1, inner, w2, rest)) :
    w1 = w1rev.reverse ∧ s = inner ++ w2 ++ closeLit name ++ rest := by
  cases s with
  | nil => simp [ws1Attempt] at h
  | cons c s' =>
    simp only [ws1Attempt] at h
    split at h
    · simp at h
    · split at h
      · next i w r hi =>
        simp only [Option.some.injEq, Prod.mk.injEq] at h
        obtain ⟨h1, h2, h3, h4⟩ := h
        obtain ⟨d, hd1, hd2⟩ := innerLoop_eq name s' [c] i w r hi
        subst h1 h2 h3 h4
        refine ⟨rfl, ?_⟩
        simp only [List.reverse_cons, List.reverse_nil, List.nil_append] at hd1
        rw [hd2, hd1]
        simp
      · simp at h

theorem ws1Loop_eq (name : List Char) :
    ∀ w1rev s w1 inner w2 rest,
      ws1Loop name w1rev s = some (w1, inner, w2, rest) →
      w1rev.reverse ++ s = w1 ++ inner ++ w2 ++ closeLit name ++ rest := by
  intro w1rev
  induction w1rev with
  | nil =>
    intro s w1 inner w2 rest h
    simp only [ws1Loop] at h
    obtain ⟨h1, h2⟩ := ws1Attempt_eq name [] s w1 inner w2 rest h
    simp [h1, h2]
  | cons c w1rev' ih =>
    intro s w1 inner w2 rest h
    simp only [ws1Loop] at h
    split at h
    · next r ha =>
      simp only [Option.some.injEq] at h
      subst h
      obtain ⟨h1, h2⟩ := ws1Attempt_eq name (c :: w1rev') s w1 inner w2 rest ha
      rw [h1, h2]
      simp
    · next ha =>
      have := ih (c :: s) w1 inner w2 rest h
      rw [← this]
      simp

theorem tailSearch_eq (name s w1 inner w2 rest : List Char)
    (h : tailSearch name s = some (w1, inner, w2, rest)) :
    s = w1 ++ inner ++ w2 ++ closeLit name ++ rest := by
  unfold tailSearch at h
  have := ws1Loop_eq name _ _ _ _ _ _ h
  simp only [List.reverse_reverse] at this
  rw [← this, List.takeWhile_append_dropWhile]

theorem tryTail_inv (name src : List Char) (m : MatchData) (rest : List Char)
    (h : tryTail name src = some (m, rest)) :
    m.name = name ∧ m.attrs = src.takeWhile (· != '>') ∧
      src = m.attrs ++ '>' :: (m.ws1 ++ m.inner ++ m.ws2 ++ closeLit m.name ++ rest) := by
  unfold tryTail at h
  split at h
  · next s2 hdrop =>
    split at h
    · next w1 inner w2 rest' hts =>
      simp only [Option.some.injEq, Prod.mk.injEq] at h
      obtain ⟨hm, hr⟩ := h
      subst hr
      subst hm
      refine ⟨rfl, rfl, ?_⟩
      show src = src.takeWhile (· != '>') ++ '>' ::
        (w1 ++ inner ++ w2 ++ closeLit name ++ rest')
      have hsrc : src.takeWhile (· != '>') ++ ('>' :: s2) = src := by
        conv_rhs => rw [← List.takeWhile_append_dropWhile (p := (· != '>')) (l := src)]
        rw [hdrop]
      have hts' := tailSearch_eq _ _ _ _ _ _ hts
      conv_lhs => rw [← hsrc, hts']
    · simp at h
  · simp at h

theorem nameLoop_inv (ar : List Char) :
    ∀ (revRun dropped : List Char) (m : MatchData) (rest : List Char),
      nameLoop ar revRun dropped = some (m, rest) →
      ∃ dropped' : List Char,
        m.name ++ dropped' = revRun.reverse ++ dropped ∧
        m.name ≠ [] ∧
        tryTail m.name (dropped' ++ ar) = some (m, rest) ∧
        (∀ hd nrev, m.name.reverse = hd :: nrev → boundaryOk hd dropped' ar = true) := by
  intro revRun
  induction revRun with
  | nil => intro dropped m rest h; simp [nameLoop] at h
  | cons a revRest ih =>
    intro dropped m rest h
    simp only [nameLoop] at h
    by_cases hb : boundaryOk a dropped ar = true
    · rw [if_pos hb] at h
      split at h
      · next r htt =>
        simp only [Option.some.injEq] at h
        subst h
        obtain ⟨hnm, -, -⟩ := tryTail_inv _ _ _ _ htt
        refine ⟨dropped, by rw [hnm], by rw [hnm]; simp, by rw [hnm]; exact htt, ?_⟩
        intro hd nrev hh
        rw [hnm, List.reverse_reverse] at hh
        have hhd : a = hd := (List.cons.injEq _ _ _ _ ▸ hh).1
        rw [← hhd]
        exact hb
      · next htt =>
        obtain ⟨dropped', h1, h2, h3, h4⟩ := ih (a :: dropped) m rest h
        refine ⟨dropped', ?_, h2, h3, h4⟩
        rw [h1]
        simp
    · rw [if_neg hb] at h
      obtain ⟨dropped', h1, h2, h3, h4⟩ := ih (a :: dropped) m rest h
      refine ⟨dropped', ?_, h2, h3, h4⟩
      rw [h1]
      simp

theorem matchAt_split (s : List Char) (m : MatchData) (rest : List Char)
    (h : matchAt s = some (m, rest)) : s = m.matched ++ rest := by
  cases s with
  | nil => simp [matchAt] at h
  | cons c0 s1 =>
    cases s1 with
    | nil => simp [matchAt] at h
    | cons c s0 =>
      simp only [matchAt] at h
      split at h
      · next hcond =>
        obtain ⟨hc0, hstart⟩ := hcond
        subst hc0
        obtain ⟨dropped', hrun, hne, htt, hbnd⟩ :=
          nameLoop_inv (s0.dropWhile isNameChar)
            ((c :: s0.takeWhile isNameChar).reverse) [] m rest h
        rw [List.reverse_reverse, List.append_nil] at hrun
        obtain ⟨-, -, hsrc⟩ := tryTail_inv m.name
          (dropped' ++ s0.dropWhile isNameChar) m rest htt
        have key : c :: s0 = m.name ++ (dropped' ++ s0.dropWhile isNameChar) := by
          conv_lhs => rw [← List.takeWhile_append_dropWhile
            (p := isNameChar) (l := s0)]
          rw [show c :: (s0.takeWhile isNameChar ++ s0.dropWhile isNameChar) =
              (c :: s0.takeWhile isNameChar) ++ s0.dropWhile isNameChar from rfl,
            ← hrun, List.append_assoc]
        rw [show ('<' :: c :: s0 = _) = ('<' :: (c :: s0) = _) from rfl, key, hsrc]
        simp [MatchData.matched, List.append_assoc]
      · simp at h

theorem matchAt_rest_lt (s : List Char) (m : MatchData) (rest : List Char)
    (h : matchAt s = some (m, rest)) : rest.length < s.length := by
  have hs := matchAt_split s m rest h
  rw [hs]
  simp only [List.length_append, MatchData.matched]
  simp

/-! ### Fuel irrelevance and one-step unfolding of the scan -/

theorem transformAux_succ (n : Nat) (s : List Char) :
    transformAux (n + 1) s =
      match matchAt s with
      | some (m, rest) => repl m ++ transformAux n rest
      | none =>
        match s with
        | [] => []
        | c :: s' => c :: transformAux n s' := rfl

theorem transformAux_congr :
    ∀ f1 f2 : Nat, ∀ s : List Char, s.length < f1 → s.length < f2 →
      transformAux f1 s = transformAux f2 s := by
  intro f1
  induction f1 with
  | zero => intro f2 s h1 h2; exact absurd h1 (Nat.not_lt_zero _)
  | succ a ih =>
    intro f2 s h1 h2
    cases f2 with
    | zero => exact absurd h2 (Nat.not_lt_zero _)
    | succ b =>
      rw [transformAux_succ a s, transformAux_succ b s]
      cases hm : matchAt s with
      | some mr =>
        obtain ⟨m, rest⟩ := mr
        have hlt := matchAt_rest_lt s m rest hm
        dsimp only
        rw [ih b rest (by omega) (by omega)]
      | none =>
        cases s with
        | nil => rfl
        | cons c s' =>
          have ha : s'.length < a := by
            simp only [List.length_cons] at h1; omega
          have hb : s'.length < b := by
            simp only [List.length_cons] at h2; omega
          dsimp only
          rw [ih b s' ha hb]

theorem transformAux_big (f : Nat) (s : List Char) (h : s.length < f) :
    transformAux f s = transformL s :=
  transformAux_congr f (s.length + 1) s h (Nat.lt_succ_self _)

theorem transformL_step_match (s : List Char) (m : MatchData) (rest : List Char)
    (h : matchAt s = some (m, rest)) :
    transformL s = repl m ++ transformL rest := by
  unfold transformL
  rw [transformAux_succ s.length s, h]
  dsimp only
  rw [transformAux_big s.length rest (matchAt_rest_lt _ _ _ h)]
  rfl

theorem transformL_step_none (c : Char) (s' : List Char)
    (h : matchAt (c :: s') = none) :
    transformL (c :: s') = c :: transformL s' := by
  unfold transformL
  rw [transformAux_succ (c :: s').length (c :: s'), h]
  dsimp only
  simp only [List.length_cons]

/-- If no suffix of `l` starts a match, the scan copies `l` unchanged. -/
theorem transformL_id_of_noMatch :
    ∀ l : List Char, (∀ t, t <:+ l → matchAt t = none) → transformL l = l := by
  intro l
  induction l with
  | nil => intro _; rfl
  | cons c s' ih =>
    intro h
    rw [transformL_step_none c s' (h _ (List.suffix_refl _))]
    rw [ih (fun t ht => h t (ht.trans (List.suffix_cons c s')))]

/-! ### The three branches of `repl` -/

theorem repl_block (m : MatchData)
    (hv : lowerL m.name ∉ VOID) (he : lowerL m.name ∉ EXCLUDED)
    (ht : stripWs (collapseWs m.inner) ≠ []) :
    repl m = '<' :: (lowerL m.name ++ m.attrs ++ '>' :: '\n' ::
      (INDENT ++ stripWs (collapseWs m.inner) ++ '\n' :: closeLit (lowerL m.name))) := by
  unfold repl
  rw [if_neg (fun hor => hor.elim hv he)]
  simp only [COLLAPSE_WHITESPACE, TRIM_TEXT, if_true]
  rw [if_neg ht]

theorem repl_keep_mem (m : MatchData)
    (hme : lowerL m.name ∈ VOID ∨ lowerL m.name ∈ EXCLUDED) :
    repl m = m.matched := by
  unfold repl
  rw [if_pos hme]

/-- A filesystem entry as `main` consumes it after glob expansion: its
path, whether it is a regular file, its `pathlib` suffix, and its text
content after best-effort decoding. -/
structure Entry where
  path : String
  isFile : Bool
  suffix : String
  content : String

/-- The usage message printed to stderr when no argument is given. -/
def usageMsg : String := "Usage: format_html.py <file-or-glob> [more files...]"

/-- `process_file(p)`: the write it performs, if the transform changed
the text; `none` models "no write". -/
def processFile (e : Entry) : Option (String × String) :=
  if transform e.content ≠ e.content then some (e.path, transform e.content)
  else none

/-- Outcome of one run of `main`: exit status, stderr text, and the file
writes performed, in order. -/
structure MainResult where
  exitCode : Nat
  errOut : String
  writes : List (String × String)
deriving Repr, DecidableEq

/-- `main()`: `args` models `sys.argv[1:]` and `glob` models the sorted
result of `pathlib.Path().glob(arg)`.  With no file arguments the script
prints the usage message to stderr and calls `sys.exit(1)` before
touching any file; otherwise it processes every regular `.html` file
(suffix compared lowercased) and falls off the end of `main`, so the
process exits 0 however many files were or were not changed. -/
def mainModel (args : List String) (glob : String → List Entry) : MainResult :=
  if args.length < 1 then
    { exitCode := 1, errOut := usageMsg, writes := [] }
  else
    { exitCode := 0, errOut := "",
      writes := args.flatMap fun a =>
        (glob a).filterMap fun e =>
          if e.isFile ∧ (⟨lowerL e.suffix.data⟩ : String) = ".html" then
            processFile e
          else none }

/-! ### Claim theorems -/

/-- C1, counterexample: on `"<P>hi</P>"` the script does NOT reuse the
original spelling `P` of the tag name in the rewritten span. -/
theorem claim1_counterexample :
    transform "<P>hi</P>" ≠ "<P>\n  hi\n</P>" := by decide

/-- C1 (amended): for every qualifying span the emitted replacement uses
the LOWERCASED tag name in both the open-tag literal and the close-tag
literal, regardless of the input spelling; the original attribute text is
kept verbatim.  (The original claim, that the original spelling is
reused, is refuted by `claim1_counterexample`.) -/
theorem claim1_lowercased_tag (m : MatchData)
    (hv : lowerL m.name ∉ VOID) (he : lowerL m.name ∉ EXCLUDED)
    (ht : stripWs (collapseWs m.inner) ≠ []) :
    repl m = '<' :: (lowerL m.name ++ m.attrs ++ '>' :: '\n' ::
      (INDENT ++ stripWs (collapseWs m.inner) ++ '\n' :: closeLit (lowerL m.name))) :=
  repl_block m hv he ht

/-- Witness for `claim1_lowercased_tag`, at the match of `"<P>hi</P>"`:
the replacement is `"<p>\n  hi\n</p>"`, with both tag literals
lowercased. -/
theorem claim1_witness :
    (lowerL "P".data ∉ VOID) ∧ (lowerL "P".data ∉ EXCLUDED) ∧
    stripWs (collapseWs "hi".data) ≠ [] ∧
    repl ⟨"P".data, [], [], "hi".data, []⟩ = "<p>\n  hi\n</p>".data := by
  refine ⟨by decide, by decide, by decide, ?_⟩
  rw [claim1_lowercased_tag ⟨"P".data, [], [], "hi".data, []⟩
    (by decide) (by decide) (by decide)]
  decide

/-- C4: on an ASCII document (where the embedding's character classes
coincide with Python's Unicode-aware ones), a matched span whose
lowercased tag name is in the void set or the excluded set is emitted
byte-for-byte identical to the original matched text, whatever the
casing of the input. -/
theorem claim4_void_excluded (s : List Char) (m : MatchData) (rest : List Char)
    (_hascii : s.all (fun c => c.toNat < 128) = true)
    (h : matchAt s = some (m, rest))
    (hme : lowerL m.name ∈ VOID ∨ lowerL m.name ∈ EXCLUDED) :
    transformL s = m.matched ++ transformL rest := by
  rw [transformL_step_match s m rest h, repl_keep_mem m hme]

/-- Witness for `claim4_void_excluded`: `"<PRE>  x  </PRE>"` (an
excluded tag written in upper case) is returned unchanged; likewise the
spec's lowercase example `"<pre>  x\n  y  </pre>"`, and
`"<pre-p>x</pre>"`, where the name run backtracks from `pre-p` to the
excluded name `pre`. -/
theorem claim4_witness :
    matchAt "<PRE>  x  </PRE>".data =
      some (⟨"PRE".data, [], "  ".data, "x".data, "  ".data⟩, []) ∧
    (lowerL "PRE".data ∈ VOID ∨ lowerL "PRE".data ∈ EXCLUDED) ∧
    matchAt "<pre-p>x</pre>".data =
      some (⟨"pre".data, "-p".data, [], "x".data, []⟩, []) ∧
    transform "<PRE>  x  </PRE>" = "<PRE>  x  </PRE>" ∧
    transform "<pre>  x\n  y  </pre>" = "<pre>  x\n  y  </pre>" ∧
    transform "<pre-p>x</pre>" = "<pre-p>x</pre>" := by
  refine ⟨by decide, by decide, by decide, ?_, ?_, ?_⟩
  · have h := claim4_void_excluded "<PRE>  x  </PRE>".data
      ⟨"PRE".data, [], "  ".data, "x".data, "  ".data⟩ []
      (by decide) (by decide) (by decide)
    show String.mk (transformL "<PRE>  x  </PRE>".data) = _
    rw [h]
    decide
  · have h := claim4_void_excluded "<pre>  x\n  y  </pre>".data
      ⟨"pre".data, [], "  ".data, "x\n  y".data, "  ".data⟩ []
      (by decide) (by decide) (by decide)
    show String.mk (transformL "<pre>  x\n  y  </pre>".data) = _
    rw [h]
    decide
  · have h := claim4_void_excluded "<pre-p>x</pre>".data
      ⟨"pre".data, "-p".data, [], "x".data, []⟩ []
      (by decide) (by decide) (by decide)
    show String.mk (transformL "<pre-p>x</pre>".data) = _
    rw [h]
    decide

/-- C5: scanning is leftmost and non-overlapping; an outer pair whose
content contains `<` does not qualify, while the inner non-nested span is
still independently matched and rewritten: the `div` tags come through
byte-identical and only the `span` is reflowed. -/
theorem claim5_nested :
    transform "<div><span>x</span></div>" = "<div><span>\n  x\n</span></div>" := by
  decide

/-- C7: the closing tag is a case-sensitive back-reference to the exact
spelling of the opening tag: `"<P>x</p>"` contains no span at any
position and is returned unchanged. -/
theorem claim7_case_sensitive_close :
    ("<P>x</p>".data.tails.all fun t => (matchAt t).isNone) = true ∧
    transform "<P>x</p>" = "<P>x</p>" := by
  constructor <;> decide

/-- C8: the transformation is total — it is a function on all strings
(totality is by construction in this embedding) — and an ASCII document
(where the embedding's character classes coincide with Python's
Unicode-aware ones) none of whose suffixes starts a match is returned
completely untouched. -/
theorem claim8_total_untouched (s : String)
    (_hascii : s.data.all (fun c => c.toNat < 128) = true)
    (h : (s.data.tails.all fun t => (matchAt t).isNone) = true) :
    transform s = s := by
  have hm : ∀ t, t <:+ s.data → matchAt t = none := by
    intro t ht
    have hmem : t ∈ s.data.tails := by
      rw [List.mem_tails]
      exact ht
    have := List.all_eq_true.mp h t hmem
    exact Option.isNone_iff_eq_none.mp this
  show String.mk (transformL s.data) = s
  rw [transformL_id_of_noMatch s.data hm]

/-- Witness for `claim8_total_untouched`: the malformed documents
`"<p>unclosed"` and `"</b>x<"` are returned unchanged. -/
theorem claim8_witness :
    ("<p>unclosed".data.tails.all fun t => (matchAt t).isNone) = true ∧
    transform "<p>unclosed" = "<p>unclosed" ∧
    transform "</b>x<" = "</b>x<" := by
  refine ⟨by decide, claim8_total_untouched _ (by decide) (by decide),
    claim8_total_untouched _ (by decide) (by decide)⟩

/-- C9: with no file arguments, `main` prints the usage message to the
error stream, exits with status 1 and touches no file; with at least one
argument it exits with status 0, however many files were or were not
changed. -/
theorem claim9_cli_exit :
    (∀ g : String → List Entry,
      mainModel [] g = { exitCode := 1, errOut := usageMsg, writes := [] }) ∧
    (∀ (args : List String) (g : String → List Entry), args ≠ [] →
      (mainModel args g).exitCode = 0) := by
  constructor
  · intro g
    rfl
  · intro args g hne
    unfold mainModel
    have : ¬ args.length < 1 := by
      cases args with
      | nil => exact absurd rfl hne
      | cons a l => simp
    rw [if_neg this]

/-- Witness for `claim9_cli_exit`: one concrete argument list exits 0. -/
theorem claim9_witness :
    (["index.html"] ≠ ([] : List String)) ∧
    (mainModel ["index.html"] fun _ => []).exitCode = 0 :=
  ⟨by decide, claim9_cli_exit.2 ["index.html"] (fun _ => []) (by decide)⟩

/-- C10: because the attribute group is `[^>]*`, a quoted attribute
value containing `>` is split at that first `>`: part of the value is
treated as inner text and reflowed. -/
theorem claim10_attr_split :
    transform "<a title=\"a>b\">x</a>" = "<a title=\"a>\n  b\">x\n</a>" := by
  decide

/-! ### Toolbox for the idempotence proof: stopped take/drop, `peel`,
`closeAt` -/

theorem peel_append_some :
    ∀ (p v r X : List Char), peel p v = some r → peel p (v ++ X) = some (r ++ X) := by
  intro p
  induction p with
  | nil =>
    intro v r X h
    simp only [peel, Option.some.injEq] at h
    simp [peel, h]
  | cons a p ih =>
    intro v r X h
    cases v with
    | nil => simp [peel] at h
    | cons c cs =>
      by_cases hac : a = c
      · subst hac
        simp only [peel, if_pos rfl] at h
        simp only [List.cons_append, peel, if_pos rfl]
        exact ih cs r X h
      · simp [peel, hac] at h

theorem peel_none_stopped :
    ∀ (lit v X : List Char), '>' ∉ lit.dropLast → '>' ∈ v →
      peel lit v = none → peel lit (v ++ X) = none := by
  intro lit
  induction lit with
  | nil => intro v X _ _ h; simp [peel] at h
  | cons a ps ih =>
    intro v X hdl hv h
    cases v with
    | nil => simp at hv
    | cons c cs =>
      by_cases hac : a = c
      · subst hac
        simp only [peel, if_pos rfl] at h
        simp only [List.cons_append, peel, if_pos rfl]
        cases ps with
        | nil => simp [peel] at h
        | cons b ps' =>
          have hdl' : '>' ∉ (b :: ps').dropLast := by
            intro hmem
            exact hdl (by
              simp only [List.dropLast_cons₂, List.mem_cons]
              right
              exact hmem)
          have hcs : '>' ∈ cs := by
            rcases List.mem_cons.mp hv with h1 | h2
            · exact absurd (by
                simp only [List.dropLast_cons₂, List.mem_cons]
                exact Or.inl h1) hdl
            · exact h2
          exact ih cs X hdl' hcs h
      · simp [peel, hac]

theorem mem_gt_closeLit (nm : List Char) : '>' ∈ closeLit nm := by
  simp [closeLit]

theorem not_mem_gt_dropLast_closeLit (nm : List Char) (h : '>' ∉ nm) :
    '>' ∉ (closeLit nm).dropLast := by
  have he : closeLit nm = ('<' :: '/' :: nm) ++ ['>'] := by simp [closeLit]
  rw [he, List.dropLast_concat]
  simp [h]

theorem mem_dropWhile_of_not {p : Char → Bool} {a : Char} {l : List Char}
    (hp : p a = false) (ha : a ∈ l) : a ∈ l.dropWhile p := by
  have := List.takeWhile_append_dropWhile (p := p) (l := l)
  rw [← this] at ha
  rcases List.mem_append.mp ha with h1 | h2
  · have := List.mem_takeWhile_imp h1
    rw [hp] at this
    cases this
  · exact h2

theorem dropWhile_append_not_nil {p : Char → Bool} :
    ∀ (a b : List Char), a.dropWhile p ≠ [] →
      (a ++ b).dropWhile p = a.dropWhile p ++ b := by
  intro a
  induction a with
  | nil => intro b h; exact absurd rfl h
  | cons x a ih =>
    intro b h
    by_cases hx : p x
    · rw [List.cons_append, List.dropWhile_cons_of_pos hx,
        List.dropWhile_cons_of_pos hx]
      apply ih
      rwa [List.dropWhile_cons_of_pos hx] at h
    · rw [List.cons_append, List.dropWhile_cons_of_neg hx,
        List.dropWhile_cons_of_neg hx]
      rfl

theorem takeWhile_append_not_nil {p : Char → Bool} :
    ∀ (a b : List Char), a.dropWhile p ≠ [] →
      (a ++ b).takeWhile p = a.takeWhile p := by
  intro a
  induction a with
  | nil => intro b h; exact absurd rfl h
  | cons x a ih =>
    intro b h
    by_cases hx : p x
    · rw [List.cons_append, List.takeWhile_cons_of_pos hx,
        List.takeWhile_cons_of_pos hx]
      rw [ih b (by rwa [List.dropWhile_cons_of_pos hx] at h)]
    · rw [List.cons_append, List.takeWhile_cons_of_neg hx,
        List.takeWhile_cons_of_neg hx]

theorem closeAt_append_some (nm v X w r : List Char)
    (h : closeAt nm v = some (w, r)) :
    closeAt nm (v ++ X) = some (w, r ++ X) := by
  unfold closeAt at h ⊢
  rcases hp : peel (closeLit nm) (v.dropWhile isSpace) with _ | r' <;> rw [hp] at h
  · simp at h
  · simp only [Option.some.injEq, Prod.mk.injEq] at h
    obtain ⟨hw, hr⟩ := h
    have hsplit := peel_eq _ _ _ hp
    have hne : v.dropWhile isSpace ≠ [] := by
      rw [hsplit]; simp [closeLit]
    rw [dropWhile_append_not_nil v X hne, takeWhile_append_not_nil v X hne]
    rw [peel_append_some _ _ _ X hp]
    rw [hw, hr]

theorem closeAt_append_none (nm v X : List Char)
    (hnm : '>' ∉ nm) (hv : '>' ∈ v) (h : closeAt nm v = none) :
    closeAt nm (v ++ X) = none := by
  unfold closeAt at h ⊢
  have hgt : '>' ∈ v.dropWhile isSpace :=
    mem_dropWhile_of_not (by decide) hv
  have hne : v.dropWhile isSpace ≠ [] := by
    intro hempty
    rw [hempty] at hgt
    cases hgt
  rw [dropWhile_append_not_nil v X hne]
  rcases hp : peel (closeLit nm) (v.dropWhile isSpace) with _ | r' <;> rw [hp] at h
  · rw [peel_none_stopped (closeLit nm) _ X
      (not_mem_gt_dropLast_closeLit nm hnm) hgt hp]
  · simp at h

def upperChars : List Char := ['A', 'B', 'C', 'D', 'E', 'F', 'G', 'H', 'I', 'J', 'K', 'L', 'M', 'N', 'O', 'P', 'Q', 'R', 'S', 'T', 'U', 'V', 'W', 'X', 'Y', 'Z']

theorem lowerChar_eq_self {c : Char} (hm : c ∉ upperChars) : lowerChar c = c := by
  simp only [upperChars, List.mem_cons, List.not_mem_nil, or_false, not_or] at hm
  obtain ⟨h1, h2, h3, h4, h5, h6, h7, h8, h9, h10, h11, h12, h13, h14, h15, h16, h17, h18, h19, h20, h21, h22, h23, h24, h25, h26⟩ := hm
  unfold lowerChar
  rw [if_neg h1, if_neg h2, if_neg h3, if_neg h4, if_neg h5, if_neg h6, if_neg h7, if_neg h8, if_neg h9, if_neg h10, if_neg h11, if_neg h12, if_neg h13, if_neg h14, if_neg h15, if_neg h16, if_neg h17, if_neg h18, if_neg h19, if_neg h20, if_neg h21, if_neg h22, if_neg h23, if_neg h24, if_neg h25, if_neg h26]

theorem isWordChar_lowerChar (c : Char) : isWordChar (lowerChar c) = isWordChar c := by
  by_cases hm : c ∈ upperChars
  · simp only [upperChars, List.mem_cons, List.not_mem_nil, or_false] at hm
    rcases hm with rfl | rfl | rfl | rfl | rfl | rfl | rfl | rfl | rfl | rfl | rfl | rfl | rfl | rfl | rfl | rfl | rfl | rfl | rfl | rfl | rfl | rfl | rfl | rfl | rfl | rfl <;> decide
  · rw [lowerChar_eq_self hm]
theorem map_isWordChar_lowerL (l : List Char) :
    (lowerL l).map isWordChar = l.map isWordChar := by
  unfold lowerL
  rw [List.map_map]
  exact List.map_congr_left (fun c _ => isWordChar_lowerChar c)

